import Mathlib

/-!
Shallow embedding of the oracle repository's reward-distribution engine
(`oracle/oracle/distributor/rewards.py`), consensus fetcher
(`oracle/oracle/eth1.py`), paginated GraphQL helper (`oracle/oracle/clients.py`),
rewards controller (`oracle/oracle/rewards/controller.py`) and
token-time-weighted position engine
(`oracle/oracle/distributor/distributor_tokens.py`), together with proofs of
the specified properties.

Addresses and tokens are modelled as natural numbers (the Python code uses
checksummed address strings ordered lexicographically; any linearly ordered
key type is faithful to sorting and map semantics).  Python dictionaries are
modelled as association lists with distinct keys, preserving insertion order.
Python big integers are `Int`; Python floor division `//` is `Int.fdiv`.
-/

/-- Addresses (and token addresses) are modelled as naturals. -/
abbrev Addr := Nat

/-- Rewards is the Python nested dict `Dict[Address, Dict[Token, str]]`,
flattened to an association list keyed by (beneficiary, token); insertion
order is preserved exactly as Python dict insertion order. -/
abbrev Rewards := List ((Addr × Addr) × Int)

/-- Value stored under a key of an association list of rewards, or 0 when
absent (mirrors Python `dict.get(key, 0)` semantics used in assertions). -/
def lookupAmount : Rewards → Addr × Addr → Int
  | [], _ => 0
  | (k, v) :: rest, key => if k = key then v else lookupAmount rest key

/-- Embeds `DistributorRewards.add_value`: `setdefault(to, {}).setdefault(tok,"0")`
followed by in-place addition; a missing key is appended with the amount. -/
def addValue : Rewards → Addr → Addr → Int → Rewards
  | [], dst, tok, amount => [((dst, tok), amount)]
  | (k, v) :: rest, dst, tok, amount =>
    if k = (dst, tok) then (k, v + amount) :: rest
    else (k, v) :: addValue rest dst tok amount

/-- Embeds `DistributorRewards.merge_rewards`: fold `add_value` of every entry
of the second mapping onto (a copy of) the first. -/
def mergeRewards (rewards1 rewards2 : Rewards) : Rewards :=
  rewards2.foldl (fun acc e => addValue acc e.1.1 e.1.2 e.2) rewards1

/-- Total of all amounts across all beneficiaries and tokens. -/
def sumRewards (r : Rewards) : Int :=
  (r.map (fun e => e.2)).sum

/-- Embeds the `Balances` TypedDict: total supply plus per-address balances. -/
structure BalancesT where
  total_supply : Int
  balances : List (Addr × Int)

/-- Value of an address in a balances dict (Python `balances[account]`). -/
def balOf : List (Addr × Int) → Addr → Int
  | [], _ => 0
  | (a, v) :: rest, x => if a = x then v else balOf rest x

/-- Context of a `DistributorRewards` object: the recognized contract set
(`uni_v3_pools ∪ {SWISE} ∪ RARI_FUSE_POOL_ADDRESSES`), the fallback address,
the reward token, and the balance fetcher (`get_balances`, a pure oracle of
the subgraph data at the fixed block range). -/
structure AllocEnv where
  supported : List Addr
  fallback : Addr
  rewardToken : Addr
  getBalances : Addr → BalancesT

/-- Embeds `DistributorRewards.is_supported_contract`. -/
def AllocEnv.isSupported (env : AllocEnv) (a : Addr) : Bool :=
  a ∈ env.supported

/-- Embeds the per-account loop of `DistributorRewards._get_rewards`
(the `for i, account in enumerate(accounts)` body).  `recurse` stands for
the recursive call into `_get_rewards` for supported contracts; the last
element of `accounts` receives `totalReward - totalDistributed`, others
receive `totalReward * balance // total_supply` (floor division). -/
def distributeLoop (env : AllocEnv) (recurse : Addr → Int → List Addr → Option Rewards)
    (contract : Addr) (totalReward ts : Int) (bal : List (Addr × Int))
    (visited : List Addr) : List Addr → Int → Rewards → Option Rewards
  | [], _, rewards => some rewards
  | a :: rest, totalDistributed, rewards =>
    let accountReward : Int :=
      if rest = [] then totalReward - totalDistributed
      else Int.fdiv (totalReward * balOf bal a) ts
    if accountReward ≤ 0 then
      distributeLoop env recurse contract totalReward ts bal visited rest
        totalDistributed rewards
    else if a = contract ∨ a ∈ visited then
      distributeLoop env recurse contract totalReward ts bal visited rest
        (totalDistributed + accountReward)
        (addValue rewards env.fallback env.rewardToken accountReward)
    else if env.isSupported a then
      match recurse a accountReward (a :: visited) with
      | none => none
      | some newRewards =>
        distributeLoop env recurse contract totalReward ts bal visited rest
          (totalDistributed + accountReward) (mergeRewards rewards newRewards)
    else
      distributeLoop env recurse contract totalReward ts bal visited rest
        (totalDistributed + accountReward)
        (addValue rewards a env.rewardToken accountReward)

/-- Embeds `DistributorRewards._get_rewards`.  The Python recursion always
terminates because `visited` grows inside the finite recognized set; here a
fuel argument makes the recursion structural, with `none` for exhausted fuel
(never reached for sufficient fuel). -/
def getRewardsRec (env : AllocEnv) : Nat → Addr → Int → List Addr → Option Rewards
  | 0, _, _, _ => none
  | fuel + 1, contract, totalReward, visited =>
    let result := env.getBalances contract
    if result.total_supply ≤ 0 then
      some (addValue [] env.fallback env.rewardToken totalReward)
    else
      let accounts := List.insertionSort (· ≤ ·) (result.balances.map Prod.fst)
      distributeLoop env (fun a r v => getRewardsRec env fuel a r v) contract
        totalReward result.total_supply result.balances visited accounts 0 []

/-- Embeds `DistributorRewards.get_rewards` (the spec's `allocate`). -/
def getRewards (env : AllocEnv) (fuel : Nat) (contract : Addr) (reward : Int) :
    Option Rewards :=
  if reward ≤ 0 then some []
  else if env.isSupported contract then
    getRewardsRec env fuel contract reward [contract]
  else
    some (addValue [] env.fallback env.rewardToken reward)

/-- Well-formedness of a fetched `Balances` value: distinct keys (Python dict
semantics), non-negative balances, and values summing to at most the total
supply (the data-model invariant stated in the spec). -/
def BalancesWF (b : BalancesT) : Prop :=
  (b.balances.map Prod.fst).Nodup ∧ (∀ p ∈ b.balances, 0 ≤ p.2) ∧
    (b.balances.map Prod.snd).sum ≤ b.total_supply

/-- Property that a fetched `Balances` with positive total supply records at
least one holder. -/
def BalancesNonempty (b : BalancesT) : Prop :=
  0 < b.total_supply → b.balances ≠ []

instance (b : BalancesT) : Decidable (BalancesWF b) := by
  unfold BalancesWF; infer_instance

instance (b : BalancesT) : Decidable (BalancesNonempty b) := by
  unfold BalancesNonempty; infer_instance

theorem sumRewards_nil : sumRewards [] = 0 := rfl

theorem sumRewards_cons (e : (Addr × Addr) × Int) (r : Rewards) :
    sumRewards (e :: r) = e.2 + sumRewards r := by
  simp [sumRewards]

theorem sumRewards_addValue (r : Rewards) (dst tok : Addr) (amount : Int) :
    sumRewards (addValue r dst tok amount) = sumRewards r + amount := by
  induction r with
  | nil => simp [addValue, sumRewards]
  | cons head tail ih =>
    obtain ⟨k, v⟩ := head
    by_cases hk : k = (dst, tok)
    · simp [addValue, hk, sumRewards_cons]; ring
    · simp only [addValue, if_neg hk, sumRewards_cons, ih]; ring

theorem sumRewards_mergeRewards (r1 r2 : Rewards) :
    sumRewards (mergeRewards r1 r2) = sumRewards r1 + sumRewards r2 := by
  induction r2 generalizing r1 with
  | nil => simp [mergeRewards, sumRewards]
  | cons e tail ih =>
    show sumRewards (mergeRewards (addValue r1 e.1.1 e.1.2 e.2) tail) = _
    rw [ih, sumRewards_addValue, sumRewards_cons]; ring

/-- Predicate: every amount recorded in a rewards mapping is strictly positive. -/
def AllPos (r : Rewards) : Prop := ∀ e ∈ r, 0 < e.2

theorem allPos_addValue {r : Rewards} {dst tok : Addr} {amount : Int}
    (hr : AllPos r) (ha : 0 < amount) : AllPos (addValue r dst tok amount) := by
  induction r with
  | nil =>
    intro e he
    simp only [addValue, List.mem_singleton] at he
    simp [he, ha]
  | cons head tail ih =>
    obtain ⟨k, v⟩ := head
    have hv : 0 < v := hr (k, v) (by simp)
    have htail : AllPos tail := fun e he => hr e (by simp [he])
    intro e he
    by_cases hk : k = (dst, tok)
    · simp only [addValue, if_pos hk, List.mem_cons] at he
      rcases he with he | he
      · simp [he]; positivity
      · exact htail e he
    · simp only [addValue, if_neg hk, List.mem_cons] at he
      rcases he with he | he
      · simp [he, hv]
      · exact ih htail e he

theorem allPos_mergeRewards {r1 r2 : Rewards}
    (h1 : AllPos r1) (h2 : AllPos r2) : AllPos (mergeRewards r1 r2) := by
  induction r2 generalizing r1 with
  | nil => exact h1
  | cons e tail ih =>
    have he : 0 < e.2 := h2 e (by simp)
    have htail : AllPos tail := fun x hx => h2 x (by simp [hx])
    exact ih (allPos_addValue h1 he) htail

theorem lookupAmount_addValue (r : Rewards) (dst tok : Addr) (amount : Int)
    (key : Addr × Addr) :
    lookupAmount (addValue r dst tok amount) key =
      lookupAmount r key + (if key = (dst, tok) then amount else 0) := by
  induction r with
  | nil =>
    by_cases hk : key = (dst, tok) <;>
      simp [addValue, lookupAmount, hk, eq_comm]
  | cons head tail ih =>
    obtain ⟨k, v⟩ := head
    by_cases hk : k = (dst, tok)
    · subst hk
      by_cases hkey : key = (dst, tok)
      · simp [addValue, lookupAmount, hkey]
      · simp [addValue, lookupAmount, hkey, Ne.symm hkey]
    · by_cases hkk : k = key
      · subst hkk
        simp [addValue, lookupAmount, hk]
      · simp [addValue, lookupAmount, hk, hkk, ih]

theorem balOf_nonneg {bal : List (Addr × Int)} (h : ∀ p ∈ bal, 0 ≤ p.2)
    (a : Addr) : 0 ≤ balOf bal a := by
  induction bal with
  | nil => simp [balOf]
  | cons head tail ih =>
    obtain ⟨b, v⟩ := head
    by_cases hb : b = a
    · simpa [balOf, hb] using h (b, v) (by simp)
    · exact (by simpa [balOf, hb] using ih fun p hp => h p (by simp [hp]))

theorem sum_map_balOf_untouched {a0 : Addr} {v0 : Int}
    (rest : List (Addr × Int)) (L : List Addr) (hL : a0 ∉ L) :
    (L.map (balOf ((a0, v0) :: rest))).sum = (L.map (balOf rest)).sum := by
  have heq : L.map (balOf ((a0, v0) :: rest)) = L.map (balOf rest) := by
    apply List.map_congr_left
    intro x hx
    have hax : a0 ≠ x := fun h => hL (h ▸ hx)
    simp [balOf, hax]
  rw [heq]

theorem sum_map_balOf_keys :
    ∀ bal : List (Addr × Int), (bal.map Prod.fst).Nodup →
      ((bal.map Prod.fst).map (balOf bal)).sum = (bal.map Prod.snd).sum := by
  intro bal
  induction bal with
  | nil => simp
  | cons head tail ih =>
    obtain ⟨a0, v0⟩ := head
    intro hnd
    simp only [List.map_cons] at hnd
    have hmem : a0 ∉ tail.map Prod.fst := (List.nodup_cons.mp hnd).1
    have hnd' : (tail.map Prod.fst).Nodup := (List.nodup_cons.mp hnd).2
    have h0 : balOf ((a0, v0) :: tail) a0 = v0 := by simp [balOf]
    calc ((((a0, v0) :: tail).map Prod.fst).map (balOf ((a0, v0) :: tail))).sum
        = balOf ((a0, v0) :: tail) a0
            + ((tail.map Prod.fst).map (balOf ((a0, v0) :: tail))).sum := by
          simp only [List.map_cons, List.sum_cons]
      _ = v0 + ((tail.map Prod.fst).map (balOf tail)).sum := by
          rw [h0, sum_map_balOf_untouched tail _ hmem]
      _ = v0 + (tail.map Prod.snd).sum := by rw [ih hnd']
      _ = (((a0, v0) :: tail).map Prod.snd).sum := by
          simp only [List.map_cons, List.sum_cons]

theorem fdiv_eq_ediv_of_pos : ∀ (a : Int) {b : Int}, 0 < b → a.fdiv b = a / b := by
  intro a b hb
  obtain ⟨n, rfl⟩ := Int.eq_ofNat_of_zero_le hb.le
  match n, hb with
  | 0, hb => exact absurd hb (by decide)
  | Nat.succ n, _ =>
    cases a with
    | ofNat m =>
      cases m with
      | zero => rw [show Int.ofNat 0 = 0 from rfl, Int.zero_fdiv, Int.zero_ediv]
      | succ m => rfl
    | negSucc m => rfl

theorem fdiv_le_fdiv_of_le {x y ts : Int} (hts : 0 < ts) (h : x ≤ y) :
    x.fdiv ts ≤ y.fdiv ts := by
  rw [fdiv_eq_ediv_of_pos x hts, fdiv_eq_ediv_of_pos y hts]
  exact Int.ediv_le_ediv hts h

theorem fdiv_add_fdiv_le {x y ts : Int} (hts : 0 < ts) :
    x.fdiv ts + y.fdiv ts ≤ (x + y).fdiv ts := by
  rw [fdiv_eq_ediv_of_pos x hts, fdiv_eq_ediv_of_pos y hts,
    fdiv_eq_ediv_of_pos (x + y) hts]
  rw [Int.le_ediv_iff_mul_le hts, add_mul]
  exact add_le_add (Int.ediv_mul_le x (ne_of_gt hts)) (Int.ediv_mul_le y (ne_of_gt hts))

theorem mul_fdiv_cancel_of_pos (R : Int) {ts : Int} (hts : 0 < ts) :
    (R * ts).fdiv ts = R := by
  rw [fdiv_eq_ediv_of_pos _ hts]
  exact Int.mul_ediv_cancel R (ne_of_gt hts)

theorem sum_fdiv_le (f : Addr → Int) {ts : Int} (hts : 0 < ts) :
    ∀ L : List Addr,
      ((L.map fun a => (f a).fdiv ts).sum) ≤ ((L.map f).sum).fdiv ts := by
  intro L
  induction L with
  | nil => simp [Int.zero_fdiv]
  | cons x xs ih =>
    simp only [List.map_cons, List.sum_cons]
    calc (f x).fdiv ts + (xs.map fun a => (f a).fdiv ts).sum
        ≤ (f x).fdiv ts + ((xs.map f).sum).fdiv ts := by linarith
      _ ≤ (f x + (xs.map f).sum).fdiv ts := fdiv_add_fdiv_le hts

theorem distributeLoop_conservation (env : AllocEnv)
    (recurse : Addr → Int → List Addr → Option Rewards)
    (contract : Addr) (R ts : Int) (bal : List (Addr × Int)) (visited : List Addr)
    (hrec : ∀ a r' v res, 0 < r' → recurse a r' v = some res → sumRewards res = r')
    (hts : 0 < ts) (hR : 0 < R) :
    ∀ (accounts : List Addr) (td : Int) (rewards r : Rewards),
      accounts ≠ [] →
      (∀ a ∈ accounts, 0 ≤ balOf bal a) →
      td + ((accounts.dropLast).map fun a => Int.fdiv (R * balOf bal a) ts).sum ≤ R →
      distributeLoop env recurse contract R ts bal visited accounts td rewards =
        some r →
      sumRewards r = sumRewards rewards + (R - td) := by
  intro accounts
  induction accounts with
  | nil => intro td rewards r h; exact absurd rfl h
  | cons a rest ih =>
    intro td rewards r _ hnn hbound hrun
    by_cases hrest : rest = []
    · subst hrest
      simp only [List.dropLast_single, List.map_nil, List.sum_nil, add_zero]
        at hbound
      simp only [distributeLoop, if_true] at hrun
      by_cases hle : R - td ≤ 0
      · rw [if_pos hle] at hrun
        obtain rfl := Option.some.inj hrun
        have : R - td = 0 := le_antisymm hle (by linarith)
        rw [this]; ring
      · rw [if_neg hle] at hrun
        by_cases hfb : a = contract ∨ a ∈ visited
        · rw [if_pos hfb] at hrun
          obtain rfl := Option.some.inj hrun
          rw [sumRewards_addValue]
        · rw [if_neg hfb] at hrun
          by_cases hsup : env.isSupported a
          · rw [if_pos hsup] at hrun
            rcases hrecv : recurse a (R - td) (a :: visited) with _ | nr
            · rw [hrecv] at hrun; exact absurd hrun (by simp)
            · rw [hrecv] at hrun
              simp only [] at hrun
              obtain rfl := Option.some.inj hrun
              rw [sumRewards_mergeRewards,
                hrec a (R - td) (a :: visited) nr (by linarith) hrecv]
          · rw [if_neg hsup] at hrun
            obtain rfl := Option.some.inj hrun
            rw [sumRewards_addValue]
    · have hdrop : (a :: rest).dropLast = a :: rest.dropLast :=
        List.dropLast_cons_of_ne_nil hrest
      rw [hdrop] at hbound
      simp only [List.map_cons, List.sum_cons] at hbound
      have hann : 0 ≤ balOf bal a := hnn a (by simp)
      have hfnn : 0 ≤ Int.fdiv (R * balOf bal a) ts :=
        Int.fdiv_nonneg (mul_nonneg hR.le hann) hts.le
      have hnn' : ∀ x ∈ rest, 0 ≤ balOf bal x := fun x hx => hnn x (by simp [hx])
      simp only [distributeLoop, if_neg hrest, hrest, if_false] at hrun
      by_cases hle : Int.fdiv (R * balOf bal a) ts ≤ 0
      · have hzero : Int.fdiv (R * balOf bal a) ts = 0 := le_antisymm hle hfnn
        rw [if_pos hle] at hrun
        exact ih td rewards r hrest hnn' (by linarith) hrun
      · rw [if_neg hle] at hrun
        have hbound' :
            (td + Int.fdiv (R * balOf bal a) ts) +
              ((rest.dropLast).map fun x => Int.fdiv (R * balOf bal x) ts).sum ≤ R := by
          linarith
        by_cases hfb : a = contract ∨ a ∈ visited
        · rw [if_pos hfb] at hrun
          have := ih (td + Int.fdiv (R * balOf bal a) ts)
            (addValue rewards env.fallback env.rewardToken (Int.fdiv (R * balOf bal a) ts))
            r hrest hnn' hbound' hrun
          rw [this, sumRewards_addValue]; ring
        · rw [if_neg hfb] at hrun
          by_cases hsup : env.isSupported a
          · rw [if_pos hsup] at hrun
            rcases hrecv : recurse a (Int.fdiv (R * balOf bal a) ts) (a :: visited)
              with _ | nr
            · rw [hrecv] at hrun; exact absurd hrun (by simp)
            · rw [hrecv] at hrun
              simp only [] at hrun
              have := ih (td + Int.fdiv (R * balOf bal a) ts)
                (mergeRewards rewards nr) r hrest hnn' hbound' hrun
              rw [this, sumRewards_mergeRewards,
                hrec a (Int.fdiv (R * balOf bal a) ts) (a :: visited) nr
                  (by linarith) hrecv]
              ring
          · rw [if_neg hsup] at hrun
            have := ih (td + Int.fdiv (R * balOf bal a) ts)
              (addValue rewards a env.rewardToken (Int.fdiv (R * balOf bal a) ts))
              r hrest hnn' hbound' hrun
            rw [this, sumRewards_addValue]; ring

theorem sum_dropLast_balOf_le {bal : List (Addr × Int)} {accounts : List Addr}
    (hne : accounts ≠ []) (hnn : ∀ p ∈ bal, 0 ≤ p.2) :
    ((accounts.dropLast).map (balOf bal)).sum ≤ (accounts.map (balOf bal)).sum := by
  conv_rhs => rw [← List.dropLast_append_getLast hne]
  rw [List.map_append, List.sum_append]
  have : 0 ≤ balOf bal (accounts.getLast hne) := balOf_nonneg hnn _
  simp only [List.map_cons, List.map_nil, List.sum_cons, List.sum_nil]
  linarith

theorem getRewardsRec_conservation (env : AllocEnv)
    (hwf : ∀ a, BalancesWF (env.getBalances a))
    (hne : ∀ a, BalancesNonempty (env.getBalances a)) :
    ∀ (fuel : Nat) (contract : Addr) (R : Int) (visited : List Addr) (r : Rewards),
      0 < R → getRewardsRec env fuel contract R visited = some r →
      sumRewards r = R := by
  intro fuel
  induction fuel with
  | zero => intro c R v r hR h; simp [getRewardsRec] at h
  | succ fuel ih =>
    intro c R v r hR h
    simp only [getRewardsRec] at h
    by_cases hts : (env.getBalances c).total_supply ≤ 0
    · rw [if_pos hts] at h
      obtain rfl := Option.some.inj h
      rw [sumRewards_addValue, sumRewards_nil, zero_add]
    · rw [if_neg hts] at h
      push_neg at hts
      obtain ⟨hnd, hpos, hsum⟩ := hwf c
      have hnonempty : (env.getBalances c).balances ≠ [] := hne c hts
      have hperm :
          (List.insertionSort (· ≤ ·) ((env.getBalances c).balances.map Prod.fst)).Perm
            ((env.getBalances c).balances.map Prod.fst) :=
        List.perm_insertionSort _ _
      have haccne :
          List.insertionSort (· ≤ ·) ((env.getBalances c).balances.map Prod.fst) ≠ [] := by
        intro h0
        have hlen := hperm.length_eq
        rw [h0] at hlen
        have : (env.getBalances c).balances.map Prod.fst = [] :=
          List.eq_nil_of_length_eq_zero hlen.symm
        exact hnonempty (List.map_eq_nil_iff.mp this)
      have hbound :
          (0 : Int) +
            (((List.insertionSort (· ≤ ·)
                ((env.getBalances c).balances.map Prod.fst)).dropLast).map
              fun a => Int.fdiv (R * balOf (env.getBalances c).balances a)
                (env.getBalances c).total_supply).sum ≤ R := by
        rw [zero_add]
        have h1 := sum_fdiv_le (fun a => R * balOf (env.getBalances c).balances a) hts
          ((List.insertionSort (· ≤ ·)
            ((env.getBalances c).balances.map Prod.fst)).dropLast)
        refine le_trans h1 ?_
        rw [List.sum_map_mul_left]
        have h2 :
            ((( List.insertionSort (· ≤ ·)
                ((env.getBalances c).balances.map Prod.fst)).dropLast).map
              (balOf (env.getBalances c).balances)).sum ≤
              (env.getBalances c).total_supply := by
          refine le_trans (sum_dropLast_balOf_le haccne hpos) ?_
          have h3 := (hperm.map (balOf (env.getBalances c).balances)).sum_eq
          rw [h3, sum_map_balOf_keys _ hnd]
          exact hsum
        have h4 : R * (((List.insertionSort (· ≤ ·)
            ((env.getBalances c).balances.map Prod.fst)).dropLast).map
              (balOf (env.getBalances c).balances)).sum ≤
            R * (env.getBalances c).total_supply :=
          mul_le_mul_of_nonneg_left h2 hR.le
        refine le_trans (fdiv_le_fdiv_of_le hts h4) ?_
        rw [mul_fdiv_cancel_of_pos R hts]
      have key := distributeLoop_conservation env
        (fun a r' v' => getRewardsRec env fuel a r' v') c R
        (env.getBalances c).total_supply (env.getBalances c).balances v
        (fun a r' v' res h1 h2 => ih a r' v' res h1 h2) hts hR
        (List.insertionSort (· ≤ ·) ((env.getBalances c).balances.map Prod.fst))
        0 [] r haccne
        (fun a _ => balOf_nonneg hpos a) hbound h
      rw [key, sumRewards_nil]; ring

theorem distributeLoop_allPos (env : AllocEnv)
    (recurse : Addr → Int → List Addr → Option Rewards)
    (contract : Addr) (R ts : Int) (bal : List (Addr × Int)) (visited : List Addr)
    (hrec : ∀ a r' v res, 0 < r' → recurse a r' v = some res → AllPos res) :
    ∀ (accounts : List Addr) (td : Int) (rewards r : Rewards),
      AllPos rewards →
      distributeLoop env recurse contract R ts bal visited accounts td rewards =
        some r →
      AllPos r := by
  intro accounts
  induction accounts with
  | nil =>
    intro td rewards r hpos hrun
    simp only [distributeLoop] at hrun
    obtain rfl := Option.some.inj hrun
    exact hpos
  | cons a rest ih =>
    intro td rewards r hpos hrun
    simp only [distributeLoop] at hrun
    set ar : Int := if rest = [] then R - td else Int.fdiv (R * balOf bal a) ts
      with har
    by_cases hle : ar ≤ 0
    · rw [if_pos hle] at hrun
      exact ih td rewards r hpos hrun
    · rw [if_neg hle] at hrun
      push_neg at hle
      by_cases hfb : a = contract ∨ a ∈ visited
      · rw [if_pos hfb] at hrun
        exact ih (td + ar)
          (addValue rewards env.fallback env.rewardToken ar) r
          (allPos_addValue hpos hle) hrun
      · rw [if_neg hfb] at hrun
        by_cases hsup : env.isSupported a
        · rw [if_pos hsup] at hrun
          rcases hrecv : recurse a ar (a :: visited) with _ | nr
          · rw [hrecv] at hrun; exact absurd hrun (by simp)
          · rw [hrecv] at hrun
            simp only [] at hrun
            exact ih (td + ar) (mergeRewards rewards nr) r
              (allPos_mergeRewards hpos (hrec a ar (a :: visited) nr hle hrecv)) hrun
        · rw [if_neg hsup] at hrun
          exact ih (td + ar) (addValue rewards a env.rewardToken ar) r
            (allPos_addValue hpos hle) hrun

theorem getRewardsRec_allPos (env : AllocEnv) :
    ∀ (fuel : Nat) (contract : Addr) (R : Int) (visited : List Addr) (r : Rewards),
      0 < R → getRewardsRec env fuel contract R visited = some r → AllPos r := by
  intro fuel
  induction fuel with
  | zero => intro c R v r hR h; simp [getRewardsRec] at h
  | succ fuel ih =>
    intro c R v r hR h
    simp only [getRewardsRec] at h
    by_cases hts : (env.getBalances c).total_supply ≤ 0
    · rw [if_pos hts] at h
      obtain rfl := Option.some.inj h
      exact allPos_addValue (fun e he => absurd he (List.not_mem_nil e)) hR
    · rw [if_neg hts] at h
      exact distributeLoop_allPos env
        (fun a r' v' => getRewardsRec env fuel a r' v') c R
        (env.getBalances c).total_supply (env.getBalances c).balances v
        (fun a r' v' res h1 h2 => ih a r' v' res h1 h2)
        (List.insertionSort (· ≤ ·) ((env.getBalances c).balances.map Prod.fst))
        0 [] r (fun e he => absurd he (List.not_mem_nil e)) h

/-- Environment of the C1 counterexample: one recognized contract `5` whose
fetched balances are empty while `total_supply = 5` (allowed by the stated
invariant `sum(balances.values) <= total_supply`). -/
def envEmptyPool : AllocEnv :=
  ⟨[5], 99, 7, fun _ => ⟨5, []⟩⟩

/-- C1 counterexample: the claim fails as stated.  In `envEmptyPool` every
fetched `Balances` satisfies non-negativity and `sum <= total_supply`, yet
`allocate(5, 1000)` returns the empty mapping, whose sum is `0`, not `1000`:
with a positive total supply and no holders the per-account loop never runs
and nothing is credited. -/
theorem allocate_conservation_counterexample :
    (∀ a, BalancesWF (envEmptyPool.getBalances a)) ∧
    getRewards envEmptyPool 2 5 1000 = some [] ∧
    sumRewards [] = 0 ∧ (0 : Int) ≠ 1000 := by
  exact ⟨fun a => (by decide : BalancesWF (⟨5, []⟩ : BalancesT)), by decide,
    by decide, by decide⟩

/-- C1 (amended): conservation of the allocator.  For every
`allocate(contract, R)` with `R > 0`, where every fetched `Balances` has
distinct keys, non-negative balances, `sum(balances.values) <= total_supply`,
and — the amendment forced by the counterexample — a non-empty balances map
whenever `total_supply > 0`, any returned Rewards mapping sums exactly to `R`
across all beneficiaries and tokens, through recursion and fallback credits;
for `R <= 0` the result is the empty mapping. -/
theorem allocate_conservation (env : AllocEnv) (fuel : Nat) (contract : Addr)
    (R : Int)
    (hwf : ∀ a, BalancesWF (env.getBalances a))
    (hne : ∀ a, BalancesNonempty (env.getBalances a)) :
    (0 < R → ∀ r, getRewards env fuel contract R = some r → sumRewards r = R) ∧
    (R ≤ 0 → getRewards env fuel contract R = some []) := by
  constructor
  · intro hR r h
    unfold getRewards at h
    rw [if_neg (not_le.mpr hR)] at h
    by_cases hsup : env.isSupported contract
    · rw [if_pos hsup] at h
      exact getRewardsRec_conservation env hwf hne fuel contract R [contract] r hR h
    · rw [if_neg hsup] at h
      obtain rfl := Option.some.inj h
      rw [sumRewards_addValue, sumRewards_nil, zero_add]
  · intro hR
    unfold getRewards
    rw [if_pos hR]

/-- Witness for the amended C1 at a concrete direct payout: three holders of
one unit each, total supply 3, reward 1000 distributed as 333 + 333 + 334 =
1000. -/
theorem allocate_conservation_witness :
    sumRewards [((1, 7), 333), ((2, 7), 333), ((3, 7), 334)] = 1000 :=
  (allocate_conservation ⟨[10], 99, 7, fun _ => ⟨3, [(1, 1), (2, 1), (3, 1)]⟩⟩
      1 10 1000
      (fun a => (by decide : BalancesWF (⟨3, [(1, 1), (2, 1), (3, 1)]⟩ : BalancesT)))
      (fun a => (by decide : BalancesNonempty (⟨3, [(1, 1), (2, 1), (3, 1)]⟩ : BalancesT)))).1
    (by decide)
    [((1, 7), 333), ((2, 7), 333), ((3, 7), 334)] (by decide)

/-- C9: non-negativity invariant.  For every `allocate(contract, R)` with
`R >= 0`, under the fetched-balances well-formedness of the claim, every
amount in the returned Rewards mapping is strictly positive — no negative
and no zero entries are emitted for any account or token at any recursion
depth. -/
theorem allocate_entries_positive (env : AllocEnv) (fuel : Nat)
    (contract : Addr) (R : Int) (r : Rewards)
    (hwf : ∀ a, BalancesWF (env.getBalances a))
    (hR : 0 ≤ R) (h : getRewards env fuel contract R = some r) :
    ∀ e ∈ r, 0 < e.2 := by
  rcases lt_or_le 0 R with hpos | hle
  · unfold getRewards at h
    rw [if_neg (not_le.mpr hpos)] at h
    by_cases hsup : env.isSupported contract
    · rw [if_pos hsup] at h
      exact getRewardsRec_allPos env fuel contract R [contract] r hpos h
    · rw [if_neg hsup] at h
      obtain rfl := Option.some.inj h
      exact allPos_addValue (fun e he => absurd he (List.not_mem_nil e)) hpos
  · unfold getRewards at h
    rw [if_pos hle] at h
    obtain rfl := Option.some.inj h
    exact fun e he => absurd he (List.not_mem_nil e)

/-- Witness for C9 at the concrete direct payout: the entry credited to the
first account in the returned mapping is strictly positive. -/
theorem allocate_entries_positive_witness :
    (0 : Int) < (((1, 7), 333) : (Addr × Addr) × Int).2 :=
  allocate_entries_positive ⟨[10], 99, 7, fun _ => ⟨3, [(1, 1), (2, 1), (3, 1)]⟩⟩
    1 10 1000 [((1, 7), 333), ((2, 7), 333), ((3, 7), 334)]
    (fun a => (by decide : BalancesWF (⟨3, [(1, 1), (2, 1), (3, 1)]⟩ : BalancesT)))
    (by decide) (by decide) ((1, 7), 333) (by decide)

/-- C5: fallback routing never raises.  For every positive reward `R`,
`allocate` on a contract outside the recognized set returns (without error)
the mapping crediting the whole `R` in the reward token to the configured
fallback address; likewise a recognized contract whose fetched
`total_supply <= 0` credits the whole `R` to the fallback address. -/
theorem allocate_fallback_routing (env : AllocEnv) (fuel : Nat)
    (contract : Addr) (R : Int) (hR : 0 < R) :
    (¬ env.isSupported contract →
      getRewards env fuel contract R =
        some [((env.fallback, env.rewardToken), R)]) ∧
    (env.isSupported contract → (env.getBalances contract).total_supply ≤ 0 →
      0 < fuel →
      getRewards env fuel contract R =
        some [((env.fallback, env.rewardToken), R)]) := by
  constructor
  · intro hsup
    unfold getRewards
    rw [if_neg (not_le.mpr hR), if_neg hsup]
    rfl
  · intro hsup hts hfuel
    obtain ⟨f, rfl⟩ : ∃ f, fuel = f + 1 :=
      ⟨fuel - 1, (Nat.succ_pred_eq_of_pos hfuel).symm⟩
    unfold getRewards
    rw [if_neg (not_le.mpr hR), if_pos hsup]
    unfold getRewardsRec
    simp only [if_pos hts]
    rfl

/-- Witness for C5: a concrete unsupported contract and a concrete recognized
empty pool, both crediting the full 1000 to the fallback address 99. -/
theorem allocate_fallback_routing_witness :
    getRewards ⟨[5], 99, 7, fun _ => ⟨0, []⟩⟩ 1 3 1000 =
      some [((99, 7), 1000)] ∧
    getRewards ⟨[5], 99, 7, fun _ => ⟨0, []⟩⟩ 1 5 1000 =
      some [((99, 7), 1000)] :=
  ⟨(allocate_fallback_routing ⟨[5], 99, 7, fun _ => ⟨0, []⟩⟩ 1 3 1000
      (by decide)).1 (by decide),
   (allocate_fallback_routing ⟨[5], 99, 7, fun _ => ⟨0, []⟩⟩ 1 5 1000
      (by decide)).2 (by decide) (by decide) (by decide)⟩

theorem distributeLoop_direct (env : AllocEnv)
    (recurse : Addr → Int → List Addr → Option Rewards)
    (contract : Addr) (R ts : Int) (bal : List (Addr × Int)) (visited : List Addr)
    (hts : 0 < ts) (hR : 0 < R) :
    ∀ (accounts : List Addr) (td : Int) (rewards r : Rewards),
      accounts.Nodup →
      (∀ a ∈ accounts, ¬ env.isSupported a ∧ a ≠ contract ∧ a ∉ visited) →
      (∀ a ∈ accounts, 0 ≤ balOf bal a) →
      td + ((accounts.dropLast).map fun a => Int.fdiv (R * balOf bal a) ts).sum ≤ R →
      distributeLoop env recurse contract R ts bal visited accounts td rewards =
        some r →
      (∀ key : Addr × Addr, key.1 ∉ accounts →
        lookupAmount r key = lookupAmount rewards key) ∧
      (∀ a ∈ accounts.dropLast,
        lookupAmount r (a, env.rewardToken) =
          lookupAmount rewards (a, env.rewardToken) +
            Int.fdiv (R * balOf bal a) ts) ∧
      (∀ h : accounts ≠ [],
        lookupAmount r (accounts.getLast h, env.rewardToken) =
          lookupAmount rewards (accounts.getLast h, env.rewardToken) +
            (R - (td +
              ((accounts.dropLast).map fun a => Int.fdiv (R * balOf bal a) ts).sum))) := by
  intro accounts
  induction accounts with
  | nil =>
    intro td rewards r _ _ _ _ hrun
    simp only [distributeLoop] at hrun
    obtain rfl := Option.some.inj hrun
    refine ⟨fun _ _ => rfl, fun a ha => absurd ha (List.not_mem_nil a), fun h => absurd rfl h⟩
  | cons a rest ih =>
    intro td rewards r hnd hterm hnn hbound hrun
    obtain ⟨hamem, hndr⟩ := List.nodup_cons.mp hnd
    obtain ⟨hsup, hcon, hvis⟩ := hterm a (by simp)
    have hterm' : ∀ x ∈ rest, ¬ env.isSupported x ∧ x ≠ contract ∧ x ∉ visited :=
      fun x hx => hterm x (by simp [hx])
    have hnn' : ∀ x ∈ rest, 0 ≤ balOf bal x := fun x hx => hnn x (by simp [hx])
    by_cases hrest : rest = []
    · subst hrest
      simp only [List.dropLast_single, List.map_nil, List.sum_nil, add_zero] at hbound
      simp only [distributeLoop, if_true] at hrun
      by_cases hle : R - td ≤ 0
      · rw [if_pos hle] at hrun
        obtain rfl := Option.some.inj hrun
        have hz : R - td = 0 := le_antisymm hle (by linarith)
        refine ⟨fun _ _ => rfl, fun x hx => absurd hx (by simp), fun h => ?_⟩
        simp only [List.getLast_singleton, List.dropLast_single, List.map_nil,
          List.sum_nil, add_zero]
        linarith
      · rw [if_neg hle, if_neg (by simp [hcon, hvis]), if_neg (by simp [hsup])] at hrun
        obtain rfl := Option.some.inj hrun
        refine ⟨fun key hkey => ?_, fun x hx => absurd hx (by simp), fun h => ?_⟩
        · rw [lookupAmount_addValue]
          have : key ≠ (a, env.rewardToken) := by
            intro hk; exact hkey (by simp [hk])
          rw [if_neg this, add_zero]
        · simp only [List.getLast_singleton, List.dropLast_single, List.map_nil,
            List.sum_nil, add_zero]
          rw [lookupAmount_addValue, if_pos rfl]
    · have hdrop : (a :: rest).dropLast = a :: rest.dropLast :=
        List.dropLast_cons_of_ne_nil hrest
      rw [hdrop] at hbound ⊢
      simp only [List.map_cons, List.sum_cons] at hbound
      have hann : 0 ≤ balOf bal a := hnn a (by simp)
      have hfnn : 0 ≤ Int.fdiv (R * balOf bal a) ts :=
        Int.fdiv_nonneg (mul_nonneg hR.le hann) hts.le
      simp only [distributeLoop, if_neg hrest, hrest, if_false] at hrun
      have hlast_eq : ∀ h : (a :: rest) ≠ [],
          (a :: rest).getLast h = rest.getLast hrest := fun _ =>
        List.getLast_cons hrest
      have hlast_mem : rest.getLast hrest ∈ rest := List.getLast_mem hrest
      by_cases hle : Int.fdiv (R * balOf bal a) ts ≤ 0
      · have hz : Int.fdiv (R * balOf bal a) ts = 0 := le_antisymm hle hfnn
        rw [if_pos hle] at hrun
        obtain ⟨hframe, hdl, hlast⟩ :=
          ih td rewards r hndr hterm' hnn' (by linarith) hrun
        refine ⟨fun key hkey => hframe key (fun hk => hkey (by simp [hk])),
          fun x hx => ?_, fun h => ?_⟩
        · rcases List.mem_cons.mp hx with rfl | hx'
          · rw [hframe (x, env.rewardToken) (by simpa using hamem), hz, add_zero]
          · exact hdl x hx'
        · rw [hlast_eq h, hlast hrest, List.map_cons, List.sum_cons, hz]
          ring
      · rw [if_neg hle, if_neg (by simp [hcon, hvis]), if_neg (by simp [hsup])] at hrun
        obtain ⟨hframe, hdl, hlast⟩ :=
          ih (td + Int.fdiv (R * balOf bal a) ts)
            (addValue rewards a env.rewardToken (Int.fdiv (R * balOf bal a) ts))
            r hndr hterm' hnn' (by linarith) hrun
        have hadd : ∀ key : Addr × Addr,
            lookupAmount (addValue rewards a env.rewardToken
              (Int.fdiv (R * balOf bal a) ts)) key =
              lookupAmount rewards key +
                (if key = (a, env.rewardToken) then Int.fdiv (R * balOf bal a) ts
                 else 0) := fun key => lookupAmount_addValue _ _ _ _ _
        refine ⟨fun key hkey => ?_, fun x hx => ?_, fun h => ?_⟩
        · rw [hframe key (fun hk => hkey (by simp [hk])), hadd key,
            if_neg (fun hk => hkey (by simp [hk])), add_zero]
        · rcases List.mem_cons.mp hx with rfl | hx'
          · rw [hframe (x, env.rewardToken) (by simpa using hamem),
              hadd (x, env.rewardToken), if_pos rfl]
          · have hxa : x ≠ a := by
              intro hxa; subst hxa
              exact hamem (List.dropLast_subset rest hx')
            rw [hdl x hx', hadd (x, env.rewardToken),
              if_neg (by simp [hxa]), add_zero]
        · have hla : rest.getLast hrest ≠ a := by
            intro hk; rw [hk] at hlast_mem; exact hamem hlast_mem
          rw [hlast_eq h, hlast hrest,
            hadd (rest.getLast hrest, env.rewardToken), if_neg (by simp [hla]),
            add_zero, List.map_cons, List.sum_cons]
          ring

/-- Accounts of a contract as the code computes them: the keys of the fetched
balances dict in ascending sorted order (`sorted(balances.keys())`). -/
def sortedAccounts (env : AllocEnv) (contract : Addr) : List Addr :=
  List.insertionSort (· ≤ ·) ((env.getBalances contract).balances.map Prod.fst)

/-- Floor share of one account: `total_reward * balance // total_supply`. -/
def floorShare (env : AllocEnv) (contract : Addr) (R : Int) (a : Addr) : Int :=
  Int.fdiv (R * balOf (env.getBalances contract).balances a)
    (env.getBalances contract).total_supply

theorem dropLast_fdiv_sum_le (bal : List (Addr × Int)) (ts R : Int)
    (hts : 0 < ts) (hR : 0 < R)
    (hnd : (bal.map Prod.fst).Nodup) (hpos : ∀ p ∈ bal, 0 ≤ p.2)
    (hsum : (bal.map Prod.snd).sum ≤ ts)
    (accounts : List Addr) (hperm : accounts.Perm (bal.map Prod.fst))
    (hne : accounts ≠ []) :
    ((accounts.dropLast).map fun a => Int.fdiv (R * balOf bal a) ts).sum ≤ R := by
  have h1 := sum_fdiv_le (fun a => R * balOf bal a) hts accounts.dropLast
  refine le_trans h1 ?_
  rw [List.sum_map_mul_left]
  have h2 : ((accounts.dropLast).map (balOf bal)).sum ≤ ts := by
    refine le_trans (sum_dropLast_balOf_le hne hpos) ?_
    rw [(hperm.map (balOf bal)).sum_eq, sum_map_balOf_keys _ hnd]
    exact hsum
  refine le_trans (fdiv_le_fdiv_of_le hts (mul_le_mul_of_nonneg_left h2 hR.le)) ?_
  rw [mul_fdiv_cancel_of_pos R hts]

/-- C4: pro-rata division with last-account absorption.  For a recognized
contract with positive total supply whose fetched holder accounts are all
terminal (not recognized, distinct from the contract — the direct-payout
setting in which each account itself receives its share), the accounts are
processed in ascending sorted order; every account except the last is
credited `floor(reward * balance / total_supply)` in the reward token, and
the last account in sorted order is credited `reward` minus the sum already
distributed. -/
theorem allocate_prorata (env : AllocEnv) (fuel : Nat) (contract : Addr)
    (R : Int) (r : Rewards)
    (hsup : env.isSupported contract)
    (hwfc : BalancesWF (env.getBalances contract))
    (hts : 0 < (env.getBalances contract).total_supply)
    (hR : 0 < R)
    (hterm : ∀ a ∈ (env.getBalances contract).balances.map Prod.fst,
      ¬ env.isSupported a ∧ a ≠ contract)
    (h : getRewards env fuel contract R = some r) :
    List.Sorted (· ≤ ·) (sortedAccounts env contract) ∧
    (∀ a ∈ (sortedAccounts env contract).dropLast,
      lookupAmount r (a, env.rewardToken) = floorShare env contract R a) ∧
    (∀ hne : sortedAccounts env contract ≠ [],
      lookupAmount r ((sortedAccounts env contract).getLast hne, env.rewardToken) =
        R - (((sortedAccounts env contract).dropLast).map
          (floorShare env contract R)).sum) := by
  obtain ⟨hnd, hpos, hsum⟩ := hwfc
  have hsorted : List.Sorted (· ≤ ·) (sortedAccounts env contract) :=
    List.sorted_insertionSort _ _
  unfold getRewards at h
  rw [if_neg (not_le.mpr hR), if_pos hsup] at h
  cases fuel with
  | zero => simp [getRewardsRec] at h
  | succ fuel =>
    simp only [getRewardsRec] at h
    rw [if_neg (not_le.mpr hts)] at h
    by_cases haccne : sortedAccounts env contract = []
    · refine ⟨hsorted, fun a ha => ?_, fun hne => absurd haccne hne⟩
      rw [haccne] at ha
      exact absurd ha (by simp)
    · have hperm := List.perm_insertionSort (· ≤ ·)
        ((env.getBalances contract).balances.map Prod.fst)
      obtain ⟨hframe, hdl, hlast⟩ := distributeLoop_direct env
        (fun a r' v => getRewardsRec env fuel a r' v) contract R
        (env.getBalances contract).total_supply
        (env.getBalances contract).balances [contract] hts hR
        (sortedAccounts env contract) 0 [] r
        (hperm.nodup_iff.mpr hnd)
        (fun a ha => by
          obtain ⟨h1, h2⟩ := hterm a (hperm.mem_iff.mp ha)
          exact ⟨h1, h2, by simp [h2]⟩)
        (fun a _ => balOf_nonneg hpos a)
        (by
          rw [zero_add]
          exact dropLast_fdiv_sum_le (env.getBalances contract).balances
            (env.getBalances contract).total_supply R hts hR hnd hpos hsum
            (sortedAccounts env contract) hperm haccne)
        h
      refine ⟨hsorted, fun a ha => ?_, fun hne => ?_⟩
      · have := hdl a ha
        simpa [lookupAmount, floorShare] using this
      · have := hlast hne
        simpa [lookupAmount, floorShare] using this

/-- Environment of the direct-payout scenario: recognized contract 10 with
three unit holders 1 < 2 < 3 and total supply 3; reward token 7; fallback 99. -/
def envPro : AllocEnv :=
  ⟨[10], 99, 7, fun _ => ⟨3, [(1, 1), (2, 1), (3, 1)]⟩⟩

/-- Witness for C4 at the concrete scenario of the claim: reward 1000 over
balances 1,1,1 yields 333 for the first two accounts in sorted order and
334 = 1000 - 666 for the last. -/
theorem allocate_prorata_witness :
    getRewards envPro 1 10 1000 =
      some [((1, 7), 333), ((2, 7), 333), ((3, 7), 334)] ∧
    lookupAmount [((1, 7), 333), ((2, 7), 333), ((3, 7), 334)]
      (1, envPro.rewardToken) = floorShare envPro 10 1000 1 ∧
    lookupAmount [((1, 7), 333), ((2, 7), 333), ((3, 7), 334)]
      (2, envPro.rewardToken) = floorShare envPro 10 1000 2 ∧
    lookupAmount [((1, 7), 333), ((2, 7), 333), ((3, 7), 334)]
      (3, envPro.rewardToken) =
      1000 - (((sortedAccounts envPro 10).dropLast).map
        (floorShare envPro 10 1000)).sum := by
  have happ := allocate_prorata envPro 1 10 1000
    [((1, 7), 333), ((2, 7), 333), ((3, 7), 334)]
    (by decide) (by decide) (by decide) (by decide) (by decide) (by decide)
  refine ⟨by decide, happ.2.1 1 (by decide), happ.2.1 2 (by decide), ?_⟩
  have hne : sortedAccounts envPro 10 ≠ [] := by decide
  exact happ.2.2 hne

/-- Environment of the nested scenario: recognized contract 10 (the spec's C)
whose fetched balances are exactly one unit held by recognized contract 20
(the spec's D); contract 20 holds accounts 1 (α) and 2 (β) one unit each. -/
def envNested : AllocEnv :=
  ⟨[10, 20], 99, 7, fun a =>
    if a = 10 then ⟨1, [(20, 1)]⟩
    else if a = 20 then ⟨2, [(1, 1), (2, 1)]⟩
    else ⟨0, []⟩⟩

/-- C3 counterexample: the claim says `allocate(C, 1000)` credits the entire
1000 to the fallback address, but the code recurses into D — D is neither the
current contract nor in the visited set `{C}` when it is first reached — and
distributes 500 to α and 500 to β; the fallback address receives nothing. -/
theorem allocate_nested_counterexample :
    getRewards envNested 3 10 1000 ≠ some [((99, 7), 1000)] ∧
    lookupAmount [((1, 7), 500), ((2, 7), 500)] (99, 7) = 0 := by
  constructor
  · intro h
    have : getRewards envNested 3 10 1000 = some [((1, 7), 500), ((2, 7), 500)] := by
      decide
    rw [this] at h
    exact absurd (Option.some.inj h) (by decide)
  · decide

/-- C3 (amended): in the nested scenario the reward is not sent to the
fallback; the allocator recurses into the recognized holder D (present in
neither the visited set nor equal to the current contract) and pays its
holders: `allocate(C, 1000) = {α: 500, β: 500}` in the reward token. -/
theorem allocate_nested :
    getRewards envNested 3 10 1000 = some [((1, 7), 500), ((2, 7), 500)] := by
  decide

/-- Embeds the loop of `_find_max_consensus` (`oracle/oracle/eth1.py`): scan
`items`, tracking the running `maximum` (initially 0) and `result` (initially
`None`); an item replaces them when its key exceeds the maximum and the count
of items with keys at least as large reaches `len(items) // 2 + 1`. -/
def findMaxConsensusAux {α : Type} (items : List α) (func : α → Int) :
    List α → Int → Option α → Option α
  | [], _, result => result
  | item :: rest, maximum, result =>
    if func item > maximum ∧
        (items.filter fun x => func x ≥ func item).length ≥ items.length / 2 + 1 then
      findMaxConsensusAux items func rest (func item) (some item)
    else
      findMaxConsensusAux items func rest maximum result

/-- Embeds `_find_max_consensus`. -/
def findMaxConsensus {α : Type} (items : List α) (func : α → Int) : Option α :=
  findMaxConsensusAux items func items 0 none

/-- Predicate used by the code's majority test: at least `len(items) // 2 + 1`
items have projected keys greater than or equal to this item's key. -/
def hasWeakMajority {α : Type} (items : List α) (func : α → Int) (item : α) : Prop :=
  (items.filter fun x => func x ≥ func item).length ≥ items.length / 2 + 1

theorem findMaxConsensusAux_spec {α : Type} (items : List α) (func : α → Int) :
    ∀ (todo : List α) (maximum : Int) (result : Option α),
      0 ≤ maximum →
      (result = none → maximum = 0) →
      (∀ it, result = some it →
        0 < func it ∧ hasWeakMajority items func it ∧ func it = maximum) →
      (findMaxConsensusAux items func todo maximum result = none →
        result = none ∧ maximum = 0 ∧
        ∀ x ∈ todo, ¬(0 < func x ∧ hasWeakMajority items func x)) ∧
      (∀ it, findMaxConsensusAux items func todo maximum result = some it →
        (0 < func it ∧ hasWeakMajority items func it) ∧ maximum ≤ func it ∧
        ∀ x ∈ todo, 0 < func x → hasWeakMajority items func x →
          func x ≤ func it) := by
  intro todo
  induction todo with
  | nil =>
    intro maximum result hmax hnone hsome
    refine ⟨fun hfin => ⟨hfin, hnone hfin, fun x hx => absurd hx (by simp)⟩,
      fun it hfin => ?_⟩
    obtain ⟨h1, h2, h3⟩ := hsome it hfin
    exact ⟨⟨h1, h2⟩, le_of_eq h3.symm, fun x hx => absurd hx (by simp)⟩
  | cons t rest ih =>
    intro maximum result hmax hnone hsome
    simp only [findMaxConsensusAux]
    by_cases hcond : func t > maximum ∧
        (items.filter fun x => func x ≥ func t).length ≥ items.length / 2 + 1
    · rw [if_pos hcond]
      have hnew := ih (func t) (some t) (le_trans hmax hcond.1.le)
        (fun h => Option.noConfusion h)
        (fun it hit => by
          obtain rfl := Option.some.inj hit
          exact ⟨lt_of_le_of_lt hmax hcond.1, hcond.2, rfl⟩)
      refine ⟨fun hfin => ?_, fun it hfin => ?_⟩
      · exact absurd (hnew.1 hfin).1 (by simp)
      · obtain ⟨hq, hge, hrest⟩ := hnew.2 it hfin
        refine ⟨hq, le_trans hcond.1.le hge, fun x hx hpos hmaj => ?_⟩
        rcases List.mem_cons.mp hx with rfl | hx'
        · exact hge
        · exact hrest x hx' hpos hmaj
    · rw [if_neg hcond]
      have hnew := ih maximum result hmax hnone hsome
      refine ⟨fun hfin => ?_, fun it hfin => ?_⟩
      · obtain ⟨h1, h2, h3⟩ := hnew.1 hfin
        refine ⟨h1, h2, fun x hx hq => ?_⟩
        rcases List.mem_cons.mp hx with rfl | hx'
        · exact hcond ⟨by rw [← h2] at hq; exact hq.1, hq.2⟩
        · exact h3 x hx' hq
      · obtain ⟨hq, hge, hrest⟩ := hnew.2 it hfin
        refine ⟨hq, hge, fun x hx hpos hmaj => ?_⟩
        rcases List.mem_cons.mp hx with rfl | hx'
        · have hxm : func x ≤ maximum := le_of_not_lt (fun hgt => hcond ⟨hgt, hmaj⟩)
          exact le_trans hxm hge
        · exact hrest x hx' hpos hmaj

/-- C2 counterexample: for keys `{100, 101, 102}` the claim says the fetcher
fails (no key is held by a majority of endpoints), but the code's test counts
endpoints with keys greater than *or equal to* the candidate, so it returns
the item with key 101 (two of three endpoints have keys >= 101). -/
theorem find_max_consensus_counterexample :
    findMaxConsensus [(100 : Int), 101, 102] id = some 101 ∧
    findMaxConsensus [(100 : Int), 101, 102] id ≠ none := by
  constructor
  · decide
  · intro h
    rw [show findMaxConsensus [(100 : Int), 101, 102] id = some 101 from by decide]
      at h
    exact Option.noConfusion h

/-- C2 (amended): the fetcher returns a value whose projected key `v` is
positive and weakly held by a majority — at least `floor(N/2) + 1` endpoints
report keys `>= v` — and among such values the key is maximal; it returns
`None` only when no endpoint's positive key is weakly exceeded by a majority.
For `{100, 100, 101}` it returns the (first) value with key 100; for
`{100, 101, 102}` it returns the value with key 101, not a failure. -/
theorem find_max_consensus_majority {α : Type} (items : List α) (func : α → Int) :
    (∀ it, findMaxConsensus items func = some it →
      (0 < func it ∧ hasWeakMajority items func it) ∧
      ∀ x ∈ items, 0 < func x → hasWeakMajority items func x →
        func x ≤ func it) ∧
    (findMaxConsensus items func = none →
      ∀ x ∈ items, ¬(0 < func x ∧ hasWeakMajority items func x)) ∧
    findMaxConsensus [(100 : Int), 100, 101] id = some 100 ∧
    findMaxConsensus [(100 : Int), 101, 102] id = some 101 := by
  have hspec := findMaxConsensusAux_spec items func items 0 none le_rfl
    (fun _ => rfl) (fun it hit => Option.noConfusion hit)
  refine ⟨fun it hfin => ?_, fun hfin => (hspec.1 hfin).2.2, by decide, by decide⟩
  obtain ⟨hq, _, hrest⟩ := hspec.2 it hfin
  exact ⟨hq, hrest⟩

/-- Witness for the amended C2: applying the theorem to the three-endpoint
list with keys 100, 100, 101 shows the returned key 100 is positive and is
weakly held by a majority (all three endpoints report keys >= 100). -/
theorem find_max_consensus_majority_witness :
    (0 : Int) < id (100 : Int) ∧
      hasWeakMajority [(100 : Int), 100, 101] id 100 :=
  ((find_max_consensus_majority [(100 : Int), 100, 101] id).1 100 (by decide)).1

/-- Entity returned by a paginated GraphQL query; the paginator reads only
its opaque `id` (modelled as a natural; the Python code uses strings). -/
structure Entity where
  id : Nat
deriving DecidableEq

/-- Embeds the `while True` loop of `execute_base_gql_paginated_query`
(`oracle/oracle/clients.py`): fetch a chunk for the current cursor (`none`
models the initial `last_id = ""`), extend the accumulated result, return it
when the chunk is shorter than `PAGINATION_WINDOWS = 1000`, else continue
with the last entity's id as the cursor.  The call count is recorded; fuel
bounds the unbounded Python loop, `none` meaning the loop did not finish
within the given fuel. -/
def executePaginatedQuery (fetch : Option Nat → List Entity) :
    Nat → Option Nat → List Entity → Nat → Option (List Entity × Nat)
  | 0, _, _, _ => none
  | fuel + 1, cursor, acc, calls =>
    let chunks := fetch cursor
    if chunks.length < 1000 then some (acc ++ chunks, calls + 1)
    else
      executePaginatedQuery fetch fuel (chunks.getLast?.map Entity.id)
        (acc ++ chunks) (calls + 1)

/-- Embeds `execute_base_gql_paginated_query` itself: start with cursor `""`
(modelled `none`), empty result, zero calls issued. -/
def executeBaseGqlPaginatedQuery (fetch : Option Nat → List Entity)
    (fuel : Nat) : Option (List Entity × Nat) :=
  executePaginatedQuery fetch fuel none [] 0

/-- Describes the upstream's responses along the cursor chain: each page is
the fetch result for the cursor reached so far, every page except the last
has exactly 1000 entities, the next cursor is the last entity's id, and the
final page is short (fewer than 1000 entities). -/
inductive FetchChain (fetch : Option Nat → List Entity) :
    Option Nat → List (List Entity) → Prop
  | last (cursor : Option Nat) (p : List Entity) :
      fetch cursor = p → p.length < 1000 → FetchChain fetch cursor [p]
  | step (cursor : Option Nat) (p : List Entity) (rest : List (List Entity)) :
      fetch cursor = p → p.length = 1000 →
      FetchChain fetch (p.getLast?.map Entity.id) rest →
      FetchChain fetch cursor (p :: rest)

theorem executePaginatedQuery_chain (fetch : Option Nat → List Entity)
    {cursor : Option Nat} {pages : List (List Entity)}
    (hchain : FetchChain fetch cursor pages) :
    ∀ (fuel : Nat) (acc : List Entity) (calls : Nat), pages.length ≤ fuel →
      executePaginatedQuery fetch fuel cursor acc calls =
        some (acc ++ pages.flatten, calls + pages.length) := by
  induction hchain with
  | last cursor p hp hshort =>
    intro fuel acc calls hfuel
    simp only [List.length_singleton] at hfuel
    obtain ⟨f, rfl⟩ : ∃ f, fuel = f + 1 :=
      ⟨fuel - 1, by omega⟩
    simp only [executePaginatedQuery, hp, if_pos hshort]
    simp
  | step cursor p rest hp hfull _ ih =>
    intro fuel acc calls hfuel
    simp only [List.length_cons] at hfuel
    obtain ⟨f, rfl⟩ : ∃ f, fuel = f + 1 :=
      ⟨fuel - 1, by omega⟩
    have hnotshort : ¬ p.length < 1000 := by omega
    simp only [executePaginatedQuery, hp, if_neg hnotshort]
    have hrest : rest.length ≤ f := by omega
    rw [ih f (acc ++ p) (calls + 1) hrest]
    have h1 : acc ++ p ++ rest.flatten = acc ++ (p :: rest).flatten := by
      simp [List.append_assoc]
    have h2 : calls + 1 + rest.length = calls + (p :: rest).length := by
      simp only [List.length_cons]
      omega
    rw [h1, h2]

/-- C7: pagination.  Whenever the upstream responds along the cursor chain
with pages that are full (exactly 1000 entities) until a final short page —
each successive query carrying the last seen id as cursor — the paginator
issues exactly one query per page and returns the concatenation of all pages
in order. -/
theorem paginated_query_correct (fetch : Option Nat → List Entity)
    (pages : List (List Entity)) (fuel : Nat)
    (hchain : FetchChain fetch none pages) (hfuel : pages.length ≤ fuel) :
    executeBaseGqlPaginatedQuery fetch fuel =
      some (pages.flatten, pages.length) := by
  have := executePaginatedQuery_chain fetch hchain fuel [] 0 hfuel
  simpa [executeBaseGqlPaginatedQuery] using this

/-- Stub upstream for the C7 scenario: pages of 1000, 1000 and 250 entities
with ids 1..2250, keyed by the cursor the paginator must present. -/
def stubFetch : Option Nat → List Entity
  | none => (List.range 1000).map fun i => ⟨i + 1⟩
  | some 1000 => (List.range 1000).map fun i => ⟨i + 1001⟩
  | some 2000 => (List.range 250).map fun i => ⟨i + 2001⟩
  | some _ => []

/-- Pages served by `stubFetch` along the cursor chain. -/
def stubPages : List (List Entity) :=
  [(List.range 1000).map fun i => ⟨i + 1⟩,
   (List.range 1000).map fun i => ⟨i + 1001⟩,
   (List.range 250).map fun i => ⟨i + 2001⟩]

set_option maxRecDepth 10000 in
/-- Witness for C7: on the 1000/1000/250 stub the paginator issues exactly
three queries and returns all 2250 entities in order. -/
theorem paginated_query_correct_witness :
    executeBaseGqlPaginatedQuery stubFetch 3 = some (stubPages.flatten, 3) ∧
    stubPages.flatten.length = 2250 := by
  constructor
  · have hchain : FetchChain stubFetch none stubPages := by
      refine FetchChain.step none _ _ rfl (by simp) ?_
      have hc1 : (((List.range 1000).map fun i => Entity.mk (i + 1)).getLast?.map
          Entity.id) = some 1000 := by decide
      have hc2 : (((List.range 1000).map fun i => Entity.mk (i + 1001)).getLast?.map
          Entity.id) = some 2000 := by decide
      rw [hc1]
      refine FetchChain.step _ _ _ rfl (by simp) ?_
      rw [hc2]
      exact FetchChain.last _ _ rfl (by simp)
    exact paginated_query_correct stubFetch stubPages 3 hchain (by simp [stubPages])
  · simp [stubPages]

/-- Validator data as the rewards controller consumes it: whether its status
is one of the pending statuses, and its beacon balance in gwei.  Chunked
fetching only partitions this list and does not change the computation. -/
structure ValidatorInfo where
  pending : Bool
  balance : Int

/-- Vote assembled by `RewardsController.process` just before submission. -/
structure RewardVote where
  nonce : Nat
  activated_validators : Nat
  total_rewards : Int
deriving DecidableEq

/-- Embeds one validator's contribution:
`Web3.toWei(balance, "gwei") - deposit_amount`, with the
`validator_reward * WAD // MGNO_RATE` conversion applied on the Gnosis
chain (Python floor division). -/
def validatorReward (isGnosis : Bool) (wad mgnoRate : Int) (balance : Int) : Int :=
  let reward := balance * 1000000000 - 32 * 1000000000000000000
  if isGnosis then Int.fdiv (reward * wad) mgnoRate else reward

/-- Embeds the accumulation loop of `RewardsController.process`:
`total_rewards` starts from `voting_params["total_fees"]` and adds each
non-pending validator's reward. -/
def computedTotalRewards (isGnosis : Bool) (wad mgnoRate : Int)
    (totalFees : Int) (validators : List ValidatorInfo) : Int :=
  validators.foldl
    (fun acc v =>
      if v.pending then acc else acc + validatorReward isGnosis wad mgnoRate v.balance)
    totalFees

/-- Count of non-pending validators (`activated_validators` in the loop). -/
def activatedValidators (validators : List ValidatorInfo) : Nat :=
  (validators.filter fun v => !v.pending).length

/-- Embeds the decision logic of `RewardsController.process` after balances
are fetched.  `voteDue` stands for the timing gate (`next_update_time >
current_time` causes an early return) together with the finality wait, which
only delay and never alter the computed values.  `if not total_rewards:
return` skips the vote exactly when the computed value equals 0; otherwise a
value below the on-chain `total_rewards` is replaced by the on-chain value
and the vote is submitted. -/
def processRewardsVote (isGnosis : Bool) (wad mgnoRate : Int) (voteDue : Bool)
    (totalFees onchainTotalRewards : Int) (nonce : Nat)
    (validators : List ValidatorInfo) : Option RewardVote :=
  if !voteDue then none
  else
    let totalRewards := computedTotalRewards isGnosis wad mgnoRate totalFees validators
    if totalRewards = 0 then none
    else
      let finalRewards :=
        if totalRewards < onchainTotalRewards then onchainTotalRewards
        else totalRewards
      some ⟨nonce, activatedValidators validators, finalRewards⟩

/-- C6: rewards clamp.  Whenever the controller submits a vote, its
`total_rewards` is never below the previous on-chain value, and when the
computed value (fees plus per-validator balance excess, after the Gnosis
rate conversion) is smaller than the on-chain value, the on-chain value is
submitted instead. -/
theorem rewards_vote_clamped (isGnosis : Bool) (wad mgnoRate : Int)
    (voteDue : Bool) (totalFees onchain : Int) (nonce : Nat)
    (validators : List ValidatorInfo) (v : RewardVote)
    (h : processRewardsVote isGnosis wad mgnoRate voteDue totalFees onchain
      nonce validators = some v) :
    onchain ≤ v.total_rewards ∧
    (computedTotalRewards isGnosis wad mgnoRate totalFees validators < onchain →
      v.total_rewards = onchain) := by
  unfold processRewardsVote at h
  by_cases hdue : voteDue
  · rw [if_neg (by simp [hdue])] at h
    by_cases hzero :
        computedTotalRewards isGnosis wad mgnoRate totalFees validators = 0
    · rw [if_pos hzero] at h
      exact Option.noConfusion h
    · rw [if_neg hzero] at h
      obtain rfl := Option.some.inj h
      by_cases hlt :
          computedTotalRewards isGnosis wad mgnoRate totalFees validators < onchain
      · simp only [if_pos hlt]
        exact ⟨le_rfl, fun _ => trivial⟩
      · simp only [if_neg hlt]
        exact ⟨le_of_not_lt hlt, fun hc => absurd hc hlt⟩
  · rw [if_pos (by simp [hdue])] at h
    exact Option.noConfusion h

/-- Witness for C6 at the claim's instance: on-chain 5 ETH, one activated
validator with 36 ETH balance so the computed value is 4 ETH: the submitted
vote carries 5 ETH. -/
theorem rewards_vote_clamped_witness :
    processRewardsVote false 1 1 true 0 5000000000000000000 1
      [⟨false, 36000000000⟩] =
        some ⟨1, 1, 5000000000000000000⟩ ∧
    (5000000000000000000 : Int) ≤
      (⟨1, 1, 5000000000000000000⟩ : RewardVote).total_rewards ∧
    (⟨1, 1, 5000000000000000000⟩ : RewardVote).total_rewards =
      5000000000000000000 := by
  have happ := rewards_vote_clamped false 1 1 true 0 5000000000000000000 1
    [⟨false, 36000000000⟩] ⟨1, 1, 5000000000000000000⟩ (by decide)
  exact ⟨by decide, happ.1, happ.2 (by decide)⟩

/-- C10: zero-rewards short-circuit.  If the computed `total_rewards` (fees
plus summed validator excesses, after the Gnosis rate conversion) equals
exactly 0, `process` returns without submitting any vote — even when the
previous on-chain value is positive — because `if not total_rewards` treats
0 as falsy; a negative computed value is truthy, does not short-circuit, and
is clamped up to a non-negative on-chain value. -/
theorem rewards_vote_zero_short_circuit (isGnosis : Bool) (wad mgnoRate : Int)
    (voteDue : Bool) (totalFees onchain : Int) (nonce : Nat)
    (validators : List ValidatorInfo) :
    (computedTotalRewards isGnosis wad mgnoRate totalFees validators = 0 →
      processRewardsVote isGnosis wad mgnoRate voteDue totalFees onchain
        nonce validators = none) ∧
    (computedTotalRewards isGnosis wad mgnoRate totalFees validators < 0 →
      0 ≤ onchain → voteDue = true →
      processRewardsVote isGnosis wad mgnoRate voteDue totalFees onchain
        nonce validators =
        some ⟨nonce, activatedValidators validators, onchain⟩) := by
  constructor
  · intro hzero
    unfold processRewardsVote
    by_cases hdue : voteDue
    · rw [if_neg (by simp [hdue]), if_pos hzero]
    · rw [if_pos (by simp [hdue])]
  · intro hneg honchain hdue
    subst hdue
    unfold processRewardsVote
    rw [if_neg (by simp), if_neg (by exact ne_of_lt hneg),
      if_pos (lt_of_lt_of_le hneg honchain)]

/-- Witness for C10: a single activated validator at exactly 32 ETH (computed
value 0) suppresses the vote even with a positive on-chain value, while a
31 ETH balance (computed value -1 ETH) is clamped up to the on-chain 5 ETH. -/
theorem rewards_vote_zero_short_circuit_witness :
    processRewardsVote false 1 1 true 0 5000000000000000000 1
      [⟨false, 32000000000⟩] = none ∧
    processRewardsVote false 1 1 true 0 5000000000000000000 1
      [⟨false, 31000000000⟩] =
      some ⟨1, 1, 5000000000000000000⟩ :=
  ⟨(rewards_vote_zero_short_circuit false 1 1 true 0 5000000000000000000 1
      [⟨false, 32000000000⟩]).1 (by decide),
   (rewards_vote_zero_short_circuit false 1 1 true 0 5000000000000000000 1
      [⟨false, 31000000000⟩]).2 (by decide) (by decide) rfl⟩

/-- Holder position as returned by the `distributorTokenHolders` query:
account, principal `amount`, accumulated `distributorPoints`, and the block
of the last update. -/
structure TokenPosition where
  account : Addr
  amount : Int
  distributorPoints : Int
  updatedAtBlock : Int

/-- Embeds the per-position computation of `get_token_liquidity_points`:
when `from_block > updated_at_block` the update block is re-based to
`from_block` and the previous points are reset to 0; the points are
`prev_account_points + principal * (to_block - updated_at_block)`. -/
def positionPoints (fromBlock toBlock : Int) (p : TokenPosition) : Int :=
  let updatedAt := if fromBlock > p.updatedAtBlock then fromBlock else p.updatedAtBlock
  let prev := if fromBlock > p.updatedAtBlock then 0 else p.distributorPoints
  prev + p.amount * (toBlock - updatedAt)

/-- Embeds `points[account] = points.get(account, 0) + account_points`:
update the existing entry in place or append a new one. -/
def addPoints : List (Addr × Int) → Addr → Int → List (Addr × Int)
  | [], a, pts => [(a, pts)]
  | (k, v) :: rest, a, pts =>
    if k = a then (k, v + pts) :: rest else (k, v) :: addPoints rest a pts

/-- Embeds one iteration of the `for position in positions` loop: skip the
zero address (`EMPTY_ADDR_HEX`, modelled as address 0) and non-positive
points, otherwise accumulate into the points map and the running total. -/
def tokenPointsStep (fromBlock toBlock : Int)
    (acc : List (Addr × Int) × Int) (p : TokenPosition) :
    List (Addr × Int) × Int :=
  if p.account = 0 then acc
  else
    let pts := positionPoints fromBlock toBlock p
    if pts ≤ 0 then acc
    else (addPoints acc.1 p.account pts, acc.2 + pts)

/-- Embeds the balance-processing part of `get_token_liquidity_points`
(`oracle/oracle/distributor/distributor_tokens.py`): fold the positions
(as already accumulated by pagination) into a points map and a total, and
return them as a `Balances`. -/
def getTokenLiquidityPoints (fromBlock toBlock : Int)
    (positions : List TokenPosition) : BalancesT :=
  let res := positions.foldl (tokenPointsStep fromBlock toBlock) ([], 0)
  ⟨res.2, res.1⟩

/-- Contribution of one position to its account's emitted points: the
position's points when the account is not the zero address and the points
are positive, else nothing. -/
def posContribution (fromBlock toBlock : Int) (p : TokenPosition) : Int :=
  if p.account = 0 then 0
  else if positionPoints fromBlock toBlock p ≤ 0 then 0
  else positionPoints fromBlock toBlock p

theorem balOf_addPoints (m : List (Addr × Int)) (a : Addr) (pts : Int)
    (x : Addr) :
    balOf (addPoints m a pts) x = balOf m x + (if a = x then pts else 0) := by
  induction m with
  | nil =>
    by_cases hax : a = x <;> simp [addPoints, balOf, hax]
  | cons head tail ih =>
    obtain ⟨k, v⟩ := head
    by_cases hk : k = a
    · subst hk
      by_cases hkx : k = x
      · simp [addPoints, balOf, hkx]
      · simp [addPoints, balOf, hkx]
    · by_cases hkx : k = x
      · subst hkx
        have : ¬ a = k := fun h => hk h.symm
        simp [addPoints, balOf, hk, this]
      · simp [addPoints, balOf, hk, hkx, ih]

theorem sum_addPoints (m : List (Addr × Int)) (a : Addr) (pts : Int) :
    ((addPoints m a pts).map Prod.snd).sum = (m.map Prod.snd).sum + pts := by
  induction m with
  | nil => simp [addPoints]
  | cons head tail ih =>
    obtain ⟨k, v⟩ := head
    by_cases hk : k = a
    · simp [addPoints, hk]; ring
    · simp [addPoints, hk, ih]; ring

theorem entries_addPoints {m : List (Addr × Int)} {a : Addr} {pts : Int}
    (hm : ∀ p ∈ m, p.1 ≠ 0 ∧ 0 < p.2) (ha : a ≠ 0) (hpts : 0 < pts) :
    ∀ p ∈ addPoints m a pts, p.1 ≠ 0 ∧ 0 < p.2 := by
  induction m with
  | nil =>
    intro p hp
    simp only [addPoints, List.mem_singleton] at hp
    subst hp
    exact ⟨ha, hpts⟩
  | cons head tail ih =>
    obtain ⟨k, v⟩ := head
    have hhead := hm (k, v) (by simp)
    have htail : ∀ p ∈ tail, p.1 ≠ 0 ∧ 0 < p.2 := fun p hp => hm p (by simp [hp])
    intro p hp
    by_cases hk : k = a
    · simp only [addPoints, if_pos hk, List.mem_cons] at hp
      rcases hp with rfl | hp
      · exact ⟨hhead.1, by have := hhead.2; positivity⟩
      · exact htail p hp
    · simp only [addPoints, if_neg hk, List.mem_cons] at hp
      rcases hp with rfl | hp
      · exact hhead
      · exact ih htail p hp

theorem tokenPoints_fold (fromBlock toBlock : Int) :
    ∀ (positions : List TokenPosition) (m : List (Addr × Int)) (t : Int),
      (∀ x, balOf (positions.foldl (tokenPointsStep fromBlock toBlock) (m, t)).1 x =
        balOf m x +
          ((positions.filter fun p => p.account = x).map
            (posContribution fromBlock toBlock)).sum) ∧
      (positions.foldl (tokenPointsStep fromBlock toBlock) (m, t)).2 =
        t + (positions.map (posContribution fromBlock toBlock)).sum ∧
      (((positions.foldl (tokenPointsStep fromBlock toBlock) (m, t)).1.map
          Prod.snd).sum =
        (m.map Prod.snd).sum +
          (positions.map (posContribution fromBlock toBlock)).sum) ∧
      ((∀ p ∈ m, p.1 ≠ 0 ∧ 0 < p.2) →
        ∀ p ∈ (positions.foldl (tokenPointsStep fromBlock toBlock) (m, t)).1,
          p.1 ≠ 0 ∧ 0 < p.2) := by
  intro positions
  induction positions with
  | nil => intro m t; exact ⟨fun x => by simp, by simp, by simp, fun hm => hm⟩
  | cons p rest ih =>
    intro m t
    by_cases hz : p.account = 0
    case pos =>
      have hstep : tokenPointsStep fromBlock toBlock (m, t) p = (m, t) := by
        simp [tokenPointsStep, hz]
      have hcontrib : posContribution fromBlock toBlock p = 0 := by
        simp [posContribution, hz]
      refine ⟨fun x => ?_, ?_, ?_, fun hm => ?_⟩
      · rw [List.foldl_cons, hstep, (ih m t).1 x]
        by_cases hx : p.account = x
        · rw [List.filter_cons_of_pos (by simp [hx])]
          simp [hcontrib]
        · rw [List.filter_cons_of_neg (by simp [hx])]
      · rw [List.foldl_cons, hstep, (ih m t).2.1, List.map_cons, List.sum_cons,
          hcontrib, zero_add]
      · rw [List.foldl_cons, hstep, (ih m t).2.2.1, List.map_cons, List.sum_cons,
          hcontrib, zero_add]
      · rw [List.foldl_cons, hstep]
        exact (ih m t).2.2.2 hm
    case neg =>
      by_cases hle : positionPoints fromBlock toBlock p ≤ 0
      case pos =>
        have hstep : tokenPointsStep fromBlock toBlock (m, t) p = (m, t) := by
          simp [tokenPointsStep, hz, hle]
        have hcontrib : posContribution fromBlock toBlock p = 0 := by
          simp [posContribution, hz, hle]
        refine ⟨fun x => ?_, ?_, ?_, fun hm => ?_⟩
        · rw [List.foldl_cons, hstep, (ih m t).1 x]
          by_cases hx : p.account = x
          · rw [List.filter_cons_of_pos (by simp [hx])]
            simp [hcontrib]
          · rw [List.filter_cons_of_neg (by simp [hx])]
        · rw [List.foldl_cons, hstep, (ih m t).2.1, List.map_cons, List.sum_cons,
            hcontrib, zero_add]
        · rw [List.foldl_cons, hstep, (ih m t).2.2.1, List.map_cons,
            List.sum_cons, hcontrib, zero_add]
        · rw [List.foldl_cons, hstep]
          exact (ih m t).2.2.2 hm
      case neg =>
        have hstep : tokenPointsStep fromBlock toBlock (m, t) p =
            (addPoints m p.account (positionPoints fromBlock toBlock p),
              t + positionPoints fromBlock toBlock p) := by
          simp [tokenPointsStep, hz, hle]
        have hcontrib : posContribution fromBlock toBlock p =
            positionPoints fromBlock toBlock p := by
          simp [posContribution, hz, hle]
        refine ⟨fun x => ?_, ?_, ?_, fun hm => ?_⟩
        · rw [List.foldl_cons, hstep,
            (ih (addPoints m p.account (positionPoints fromBlock toBlock p))
              (t + positionPoints fromBlock toBlock p)).1 x,
            balOf_addPoints]
          by_cases hx : p.account = x
          · rw [List.filter_cons_of_pos (by simp [hx])]
            simp only [List.map_cons, List.sum_cons, hcontrib, if_pos hx]
            ring
          · rw [List.filter_cons_of_neg (by simp [hx])]
            simp only [if_neg hx]
            ring
        · rw [List.foldl_cons, hstep,
            (ih (addPoints m p.account (positionPoints fromBlock toBlock p))
              (t + positionPoints fromBlock toBlock p)).2.1,
            List.map_cons, List.sum_cons, hcontrib]
          ring
        · rw [List.foldl_cons, hstep,
            (ih (addPoints m p.account (positionPoints fromBlock toBlock p))
              (t + positionPoints fromBlock toBlock p)).2.2.1,
            sum_addPoints, List.map_cons, List.sum_cons, hcontrib]
          ring
        · rw [List.foldl_cons, hstep]
          exact (ih (addPoints m p.account (positionPoints fromBlock toBlock p))
              (t + positionPoints fromBlock toBlock p)).2.2.2
            (entries_addPoints hm hz (lt_of_not_le hle))

/-- C8: the TokenTimeWeighted engine.  Each emitted account's points are the
sum over that account's positions of
`prev_points + principal * (to_block - max(updated_at, from_block))`, with
`prev_points` reset to 0 when `updated_at < from_block`; positions with
non-positive resulting points and positions of the zero address are omitted;
every emitted entry is for a non-zero account with strictly positive points;
and the returned `total_supply` is exactly the sum of all emitted points. -/
theorem token_liquidity_points_spec (fromBlock toBlock : Int)
    (positions : List TokenPosition) :
    (∀ p : TokenPosition,
      positionPoints fromBlock toBlock p =
        (if p.updatedAtBlock < fromBlock then 0 else p.distributorPoints) +
          p.amount * (toBlock - max p.updatedAtBlock fromBlock)) ∧
    (∀ x, balOf (getTokenLiquidityPoints fromBlock toBlock positions).balances x =
      ((positions.filter fun p => p.account = x).map
        (posContribution fromBlock toBlock)).sum) ∧
    (∀ p ∈ (getTokenLiquidityPoints fromBlock toBlock positions).balances,
      p.1 ≠ 0 ∧ 0 < p.2) ∧
    (getTokenLiquidityPoints fromBlock toBlock positions).total_supply =
      ((getTokenLiquidityPoints fromBlock toBlock positions).balances.map
        Prod.snd).sum := by
  obtain ⟨hbal, htot, hsum, hent⟩ := tokenPoints_fold fromBlock toBlock positions [] 0
  refine ⟨fun p => ?_, fun x => ?_, ?_, ?_⟩
  · rcases lt_or_le p.updatedAtBlock fromBlock with hlt | hle
    · simp only [positionPoints, gt_iff_lt, if_pos hlt, max_eq_right hlt.le]
    · simp only [positionPoints, gt_iff_lt, if_neg (not_lt.mpr hle),
        max_eq_left hle]
  · have := hbal x
    simpa [getTokenLiquidityPoints, balOf] using this
  · intro p hp
    refine hent (fun q hq => absurd hq (List.not_mem_nil q)) p ?_
    simpa [getTokenLiquidityPoints] using hp
  · show (positions.foldl (tokenPointsStep fromBlock toBlock) ([], 0)).2 = _
    rw [htot]
    show _ = ((positions.foldl (tokenPointsStep fromBlock toBlock) ([], 0)).1.map
      Prod.snd).sum
    rw [hsum]
    simp

/-- Sample positions for the C8 witness: a holder updated inside the window
(keeps previous points), one updated before `from_block` (points reset), the
zero address (dropped), and a position with negative resulting points
(dropped). -/
def demoPositions : List TokenPosition :=
  [⟨1, 10, 5, 100⟩, ⟨2, 3, 7, 40⟩, ⟨0, 5, 5, 60⟩, ⟨3, -1, 0, 0⟩]

/-- Witness for C8 on `demoPositions` with window 50..150: account 1 keeps
its 5 previous points plus 10 x 50 = 505; account 2 is reset and gets
3 x 100 = 300; the zero address and the negative-points position are
dropped; total supply 805 equals the sum of emitted points. -/
theorem token_liquidity_points_spec_witness :
    balOf (getTokenLiquidityPoints 50 150 demoPositions).balances 1 =
      ((demoPositions.filter fun p => p.account = 1).map
        (posContribution 50 150)).sum ∧
    (getTokenLiquidityPoints 50 150 demoPositions).total_supply = 805 ∧
    (getTokenLiquidityPoints 50 150 demoPositions).balances =
      [(1, 505), (2, 300)] :=
  ⟨(token_liquidity_points_spec 50 150 demoPositions).2.1 1, by decide, by decide⟩
